/-
Verification of the concurrency / resource-management core of the
trading-simulator repository, against its natural-language specification.

The C++ sources are shallowly embedded as Lean definitions:

* `include/core/lock_free_queue.h`  → `LockFreeQueue` (sequential semantics;
  in a single-threaded execution the weak CAS on `head_`/`tail_` observes an
  unchanged counter, so a successful compare is modelled as a successful
  exchange, and atomic loads return the current value)
* `src/core/memory_pool.cpp`        → `MemoryPool` (addresses are modelled as
  natural numbers; the host allocator's placement of a chunk is passed in
  explicitly; the `std::atomic<size_t>` allocation counter wraps mod 2^64)
* `src/core/thread_pool.cpp`, `include/core/thread_pool.h` → `ThreadPool`
  (tasks are opaque identifiers; worker execution is summarised by the drain
  that `shutdown` performs when live workers exist)
* `src/data/cache_manager.cpp`      → `CacheManager` (the `unordered_map` is
  an association list, `std::list` recency order a `List String`, the disk
  directory the list of keys whose `<key>.cache` file exists; `steady_clock`
  instants are naturals supplied by the caller of each operation)

`size_t` arithmetic is `Nat`; where a subtraction or increment can actually
wrap in the source (the pool's `fetch_sub`, the queue's capacity rounding)
the wrap is modelled explicitly with `% 2 ^ 64`.
-/
import Mathlib

set_option autoImplicit false

/-! # Bounded SPSC lock-free queue (`include/core/lock_free_queue.h`) -/

/-- One step budget of `next_power_of_2`'s `while (power < n) power <<= 1;`
loop: `power` is a `size_t`, so the shift wraps modulo `2 ^ 64`.  The loop is
given explicit fuel; `none` means the loop was still running when the fuel ran
out.  (For every `n ≤ 2 ^ 63` the loop exits within 64 iterations; for larger
`n` it never exits, because `power` wraps to `0` and stays there.) -/
def nextPow2Go (n : Nat) : Nat → Nat → Option Nat
  | 0, power => if power < n then none else some power
  | fuel + 1, power =>
    if power < n then nextPow2Go n fuel (power * 2 % 2 ^ 64) else some power

/-- `LockFreeQueue<T>::next_power_of_2`.  `n <= 1` returns 1; otherwise the
doubling loop, which terminates within 64 steps exactly when it terminates at
all. -/
def next_power_of_2 (n : Nat) : Option Nat :=
  if n ≤ 1 then some 1 else nextPow2Go n 64 1

/-- A queue slot: `struct Node { T data; std::atomic<size_t> sequence; }`. -/
structure LFNode (α : Type) where
  data : α
  sequence : Nat
  deriving Repr, DecidableEq

/-- The queue state.  `buffer` maps a ring index to its node; the code only
ever addresses indices `i & mask_ = i % capacity < capacity`. -/
structure LockFreeQueue (α : Type) where
  capacity : Nat
  buffer : Nat → LFNode α
  head : Nat
  tail : Nat

/-- The freshly constructed buffer: `buffer_[i].sequence = i`, data
default-constructed. -/
def freshQueue (α : Type) [Inhabited α] (cap : Nat) : LockFreeQueue α :=
  { capacity := cap
    buffer := fun i => ⟨default, i⟩
    head := 0
    tail := 0 }

/-- `LockFreeQueue<T>::LockFreeQueue(capacity)`: round the requested capacity
up with `next_power_of_2` (diverging for `capacity > 2^63`, hence `Option`)
and initialise the ring. -/
def mkLockFreeQueue (α : Type) [Inhabited α] (capacity : Nat) :
    Option (LockFreeQueue α) :=
  (next_power_of_2 capacity).map (freshQueue α)

/-- `try_push`: reject when full (`head - tail >= capacity_`) or when the slot
at `head & mask_` is not yet writable (`sequence != head`); otherwise the CAS
bumps `head_`, the payload is stored and `sequence = head + 1` published.
`head & mask_` is written `head % capacity`: for a power-of-two capacity the
bitmask and the remainder coincide. -/
def LockFreeQueue.try_push {α : Type} (q : LockFreeQueue α) (value : α) :
    LockFreeQueue α × Bool :=
  let head := q.head
  let tail := q.tail
  if q.capacity ≤ head - tail then (q, false)
  else
    let node := q.buffer (head % q.capacity)
    if node.sequence ≠ head then (q, false)
    else
      ({ q with
          head := head + 1
          buffer := fun j =>
            if j = head % q.capacity then ⟨value, head + 1⟩ else q.buffer j },
        true)

/-- `try_pop`: reject when empty (`tail >= head`) or when the slot at
`tail & mask_` is not yet readable (`sequence != tail + 1`); otherwise the CAS
bumps `tail_`, the payload is moved out and `sequence = tail + capacity_`
published (the moved-from payload is left in place, as in the source). -/
def LockFreeQueue.try_pop {α : Type} (q : LockFreeQueue α) :
    LockFreeQueue α × Option α :=
  let tail := q.tail
  let head := q.head
  if head ≤ tail then (q, none)
  else
    let node := q.buffer (tail % q.capacity)
    if node.sequence ≠ tail + 1 then (q, none)
    else
      ({ q with
          tail := tail + 1
          buffer := fun j =>
            if j = tail % q.capacity then ⟨node.data, tail + q.capacity⟩
            else q.buffer j },
        some node.data)

/-- Run `try_push` once per value, front of the list first, collecting each
call's boolean result. -/
def LockFreeQueue.pushAll {α : Type} (q : LockFreeQueue α) :
    List α → LockFreeQueue α × List Bool
  | [] => (q, [])
  | v :: vs =>
    let p := q.try_push v
    let r := p.1.pushAll vs
    (r.1, p.2 :: r.2)

/-- Run `try_pop` `n` times, collecting each call's result (`none` = the pop
reported an empty queue). -/
def LockFreeQueue.popN {α : Type} (q : LockFreeQueue α) :
    Nat → LockFreeQueue α × List (Option α)
  | 0 => (q, [])
  | n + 1 =>
    let p := q.try_pop
    let r := p.1.popN n
    (r.1, p.2 :: r.2)

/-! # Fixed-block memory pool (`src/core/memory_pool.cpp`) -/

/-- `offsetof(Block, data)` for `struct Block { Block* next; char data[1]; }`
on the LP64 targets this repository builds for: one 8-byte pointer before the
payload. -/
def blockHeaderOffset : Nat := 8

/-- `alignof(Block)` on the same targets. -/
def blockAlign : Nat := 8

/-- `sizeof(Block)` on the same targets: the 8-byte `next` pointer followed
by `char data[1]`, padded to the 8-byte alignment. -/
def sizeofBlock : Nat := 16

/-- Pool state.  A chunk is recorded as its start address and its block count;
block `i` of a chunk starting at `a` occupies `[a + i*blockSize, a +
(i+1)*blockSize)`.  `freeList` holds the `Block*` addresses in list order
(head of the list = head of the free list).  `allocatedBlocks` is the
`std::atomic<size_t>` statistic and wraps modulo `2 ^ 64`. -/
structure MemoryPool where
  blockSize : Nat
  chunks : List (Nat × Nat)
  freeList : List Nat
  totalBlocks : Nat
  allocatedBlocks : Nat
  deriving Repr, DecidableEq

/-- `MemoryPool::expand_pool(num_blocks)`: carve `num_blocks` blocks out of a
fresh chunk (placed by the host allocator at `chunkAddr`) and push each onto
the free list, block 0 first — so the last block ends up at the head. -/
def MemoryPool.expand_pool (p : MemoryPool) (chunkAddr num_blocks : Nat) :
    MemoryPool :=
  { p with
      chunks := p.chunks ++ [(chunkAddr, num_blocks)]
      freeList :=
        (List.range num_blocks).foldl
          (fun fl i => (chunkAddr + i * p.blockSize) :: fl) p.freeList
      totalBlocks := p.totalBlocks + num_blocks }

/-- `MemoryPool::MemoryPool(block_size, initial_blocks)`: reject
`block_size == 0` (`std::invalid_argument`), add the header struct's size to
the block size (`sizeof(Block) + block_size - 1`, the `- 1` because `data[1]`
already holds one payload byte), round up to the block alignment, then
pre-expand.  `chunkAddr` is where the host allocator places the initial
chunk. -/
def mkMemoryPool (block_size initial_blocks chunkAddr : Nat) :
    Option MemoryPool :=
  if block_size = 0 then none
  else
    let totalBlockSize := sizeofBlock + block_size - 1
    let totalBlockSize :=
      if totalBlockSize % blockAlign ≠ 0 then
        totalBlockSize + (blockAlign - totalBlockSize % blockAlign)
      else totalBlockSize
    let base : MemoryPool :=
      { blockSize := totalBlockSize
        chunks := []
        freeList := []
        totalBlocks := 0
        allocatedBlocks := 0 }
    some (if initial_blocks > 0
          then base.expand_pool chunkAddr initial_blocks
          else base)

/-- `MemoryPool::is_valid_pointer`: non-null, inside some owned chunk — with
the source's bound `chunk_start + total_blocks_ * block_size_`, which uses the
pool-wide block count — and at offset `offsetof(Block, data)` modulo the block
size. -/
def MemoryPool.is_valid_pointer (p : MemoryPool) (ptr : Nat) : Bool :=
  ptr ≠ 0 &&
    p.chunks.any fun c =>
      c.1 ≤ ptr && ptr < c.1 + p.totalBlocks * p.blockSize &&
        (ptr - c.1) % p.blockSize = blockHeaderOffset

/-- `MemoryPool::allocate()`: expand by `max(1, total_blocks_/2)` blocks when
the free list is empty (`chunkAddr` being the fresh chunk's placement), pop
the head of the free list, bump the allocation counter, and hand out the
block's `data` member.  The fallback arm is unreachable: expansion always adds
at least one block. -/
def MemoryPool.allocate (p : MemoryPool) (chunkAddr : Nat) :
    MemoryPool × Nat :=
  let p1 :=
    if p.freeList = [] then p.expand_pool chunkAddr (max 1 (p.totalBlocks / 2))
    else p
  match p1.freeList with
  | [] => (p1, 0)
  | block :: rest =>
    ({ p1 with
        freeList := rest
        allocatedBlocks := (p1.allocatedBlocks + 1) % 2 ^ 64 },
      block + blockHeaderOffset)

/-- `MemoryPool::deallocate(ptr)`: ignore null and invalid pointers; push a
valid pointer's block back onto the free list and `fetch_sub(1)` the counter
(which wraps on an empty pool). -/
def MemoryPool.deallocate (p : MemoryPool) (ptr : Nat) : MemoryPool :=
  if ptr = 0 then p
  else if ¬ p.is_valid_pointer ptr then p
  else
    { p with
        freeList := (ptr - blockHeaderOffset) :: p.freeList
        allocatedBlocks := (p.allocatedBlocks + (2 ^ 64 - 1)) % 2 ^ 64 }

/-- `MemoryPool::allocated_blocks()`. -/
def MemoryPool.allocated_blocks (p : MemoryPool) : Nat := p.allocatedBlocks

/-! # Task thread pool (`src/core/thread_pool.cpp`, `include/core/thread_pool.h`) -/

/-- Outcome of `ThreadPool::submit`: the enqueued future, or the
`std::runtime_error("submit on stopped ThreadPool")` thrown synchronously. -/
inductive SubmitResult where
  | ok
  | errStopped
  deriving Repr, DecidableEq

/-- Pool state.  Tasks are opaque identifiers; `tasks` is the pending queue
(front of the list = front of the queue), `completed` the tasks workers have
finished, `workers` the number of live (joinable) worker threads. -/
structure ThreadPool where
  stop : Bool
  tasks : List Nat
  completed : List Nat
  workers : Nat
  deriving Repr, DecidableEq

/-- `ThreadPool::ThreadPool(num_threads)`: 0 means
`hardware_concurrency()` (passed in as `hw`), itself falling back to 4. -/
def mkThreadPool (num_threads hw : Nat) : ThreadPool :=
  let n := if num_threads = 0 then (if hw = 0 then 4 else hw) else num_threads
  { stop := false, tasks := [], completed := [], workers := n }

/-- `ThreadPool::submit`: under the queue lock, throw if `stop_` is set —
leaving every field untouched — otherwise append the wrapped task to the
queue. -/
def ThreadPool.submit (p : ThreadPool) (task : Nat) :
    ThreadPool × SubmitResult :=
  if p.stop then (p, .errStopped)
  else ({ p with tasks := p.tasks ++ [task] }, .ok)

/-- `ThreadPool::shutdown()`: set `stop_`, wake and join every worker, clear
`workers_`.  A live worker's loop only exits once `stop_ && tasks_.empty()`,
so joining live workers drains the pending queue into `completed`; with no
live workers (a pool already shut down) nothing runs and the queue is left as
is. -/
def ThreadPool.shutdown (p : ThreadPool) : ThreadPool :=
  if p.workers = 0 then { p with stop := true, workers := 0 }
  else
    { stop := true
      tasks := []
      completed := p.completed ++ p.tasks
      workers := 0 }

/-! # LRU disk-backed cache (`src/data/cache_manager.cpp`) -/

/-- `MarketDataSeries` (`include/data/market_data.h`), projected to the two
observables every cache property depends on: the symbol string and the number
of stored points (`size()`).  The per-point OHLCV payload (timestamps and
`double` prices) flows through the cache untouched and plays no role in any
claim, so it is not modelled. -/
structure MarketDataSeries where
  symbol : String
  numPoints : Nat
  deriving Repr, DecidableEq

/-- `sizeof(MarketDataPoint)` on the LP64 targets this repository builds for:
an 8-byte `time_point`, four `double`s and an `int64_t`. -/
def sizeofMarketDataPoint : Nat := 48

/-- `sizeof(std::vector<MarketDataPoint>)` on the same targets. -/
def sizeofPointVector : Nat := 24

/-- `CacheManager::estimate_memory_usage`: `sizeof(MarketDataPoint) * size()`
plus the symbol length, the vector header and a flat 100-byte overhead. -/
def estimate_memory_usage (data : MarketDataSeries) : Nat :=
  sizeofMarketDataPoint * data.numPoints +
    (data.symbol.length + sizeofPointVector + 100)

/-- `struct CacheEntry` (`include/data/cache_manager.h`). -/
structure CacheEntry where
  data : MarketDataSeries
  size_bytes : Nat
  last_accessed : Nat
  created : Nat
  deriving Repr, DecidableEq

/-- `cache_.find(key)` on the association-list model of the
`unordered_map`. -/
def findEntry : List (String × CacheEntry) → String → Option CacheEntry
  | [], _ => none
  | (k', e) :: rest, k => if k' = k then some e else findEntry rest k

/-- `cache_[key] = entry`: replace the value at `key` in place, or append a
fresh binding. -/
def insertEntry : List (String × CacheEntry) → String → CacheEntry →
    List (String × CacheEntry)
  | [], k, e => [(k, e)]
  | (k', e') :: rest, k, e =>
    if k' = k then (k, e) :: rest else (k', e') :: insertEntry rest k e

/-- `cache_.erase(it)` at the (first) binding of `key`. -/
def eraseKey : List (String × CacheEntry) → String → List (String × CacheEntry)
  | [], _ => []
  | (k', e') :: rest, k =>
    if k' = k then rest else (k', e') :: eraseKey rest k

/-- Cache state.  `disk` is the set of keys whose `<key>.cache` file currently
exists in the cache directory, listed most recently written first; the
asynchronous persistence path is summarised by its eventual effect, the file
write itself (spec §4.4: the mirror may lag — what is modelled is the state
once the scheduled write has run).  `totalRequests`/`cacheHits` are the
metadata counters as loaded at construction. -/
structure CacheManager where
  maxMemoryBytes : Nat
  currentMemoryBytes : Nat
  cache : List (String × CacheEntry)
  lruList : List String
  totalRequests : Nat
  cacheHits : Nat
  disk : List String
  deriving Repr, DecidableEq

/-- `CacheManager::CacheManager(max_memory_mb, dir)`: an empty index over a
budget of `max_memory_mb * 1024 * 1024` bytes, counters as recovered from
`metadata.json` (zero when the file is missing or corrupt), `disk` the
`.cache` files already present in the directory. -/
def mkCacheManager (max_memory_mb tr ch : Nat) (disk0 : List String) :
    CacheManager :=
  { maxMemoryBytes := max_memory_mb * 1024 * 1024
    currentMemoryBytes := 0
    cache := []
    lruList := []
    totalRequests := tr
    cacheHits := ch
    disk := disk0 }

/-- `CacheManager::get(key)` at steady-clock instant `now`: on a miss return
`nullopt`; on a hit refresh `last_accessed`, move the key to the front of the
recency list (`lru_list_.remove(key)` drops every occurrence) and return the
payload.  Neither branch touches `total_requests_` or `cache_hits_` — the
source never increments them. -/
def CacheManager.get (m : CacheManager) (key : String) (now : Nat) :
    CacheManager × Option MarketDataSeries :=
  match findEntry m.cache key with
  | none => (m, none)
  | some e =>
    ({ m with
        cache := insertEntry m.cache key { e with last_accessed := now }
        lruList := key :: m.lruList.filter (fun x => x != key) },
      some e.data)

/-- `CacheManager::evict_lru_item()`: drop the back of the recency list and,
when that key is still in the map, remove its entry and give back its
bytes. -/
def CacheManager.evict_lru_item (m : CacheManager) : CacheManager :=
  match m.lruList.getLast? with
  | none => m
  | some keyToEvict =>
    let rest := m.lruList.dropLast
    match findEntry m.cache keyToEvict with
    | some e =>
      { m with
          lruList := rest
          currentMemoryBytes := m.currentMemoryBytes - e.size_bytes
          cache := eraseKey m.cache keyToEvict }
    | none => { m with lruList := rest }

/-- The guard of `put`'s eviction loop:
`current_memory_bytes_ + data_size > max_memory_bytes_ && !cache_.empty()`. -/
def evictGuard (dataSize : Nat) (m : CacheManager) : Prop :=
  m.maxMemoryBytes < m.currentMemoryBytes + dataSize ∧ m.cache ≠ []

instance (dataSize : Nat) (m : CacheManager) : Decidable (evictGuard dataSize m) :=
  inferInstanceAs (Decidable (_ ∧ _))

/-- `put`'s `while` loop over `evict_lru_item`, with explicit fuel.  On every
state whose recency list is a permutation of the key set, `cache_.size()`
steps of fuel are exact (theorem `c10_put_eviction_terminates`); the C++ loop
can fail to terminate only on states violating that invariant, which are
unreachable (theorem `c6_recency_list_is_permutation_of_keys`). -/
def evictLoop (dataSize : Nat) : Nat → CacheManager → CacheManager
  | 0, m => m
  | fuel + 1, m =>
    if evictGuard dataSize m then evictLoop dataSize fuel m.evict_lru_item
    else m

/-- The storing tail of `CacheManager::put`, once the eviction loop has made
room: refund a replaced entry's bytes and recency position, bind the new
entry, charge its bytes, push the key to the front of the recency order, and
mirror the entry to disk (directly or via the thread pool — modelled by its
effect, the file's existence). -/
def CacheManager.putStore (m1 : CacheManager) (key : String)
    (data : MarketDataSeries) (now data_size : Nat) : CacheManager :=
  let entry : CacheEntry :=
    { data := data, size_bytes := data_size
      last_accessed := now, created := now }
  let m2 :=
    match findEntry m1.cache key with
    | some existing =>
      { m1 with
          currentMemoryBytes := m1.currentMemoryBytes - existing.size_bytes
          lruList := m1.lruList.filter (fun x => x != key) }
    | none => m1
  { m2 with
      cache := insertEntry m2.cache key entry
      currentMemoryBytes := m2.currentMemoryBytes + data_size
      lruList := key :: m2.lruList
      disk := if key ∈ m2.disk then m2.disk else key :: m2.disk }

/-- `CacheManager::put(key, data)` at instant `now`: size the payload, evict
while over budget and non-empty, silently drop the payload if it still does
not fit, otherwise store it (`CacheManager.putStore`). -/
def CacheManager.put (m : CacheManager) (key : String)
    (data : MarketDataSeries) (now : Nat) : CacheManager :=
  let data_size := estimate_memory_usage data
  let m1 := evictLoop data_size m.cache.length m
  if m1.maxMemoryBytes < m1.currentMemoryBytes + data_size then m1
  else m1.putStore key data now data_size

/-- `CacheManager::remove(key)`: only when the key has an in-memory entry,
refund its bytes, drop it from the recency list and the map, and delete its
`<key>.cache` file.  With no in-memory entry nothing at all happens — any
on-disk file stays. -/
def CacheManager.remove (m : CacheManager) (key : String) : CacheManager :=
  match findEntry m.cache key with
  | none => m
  | some e =>
    { m with
        currentMemoryBytes := m.currentMemoryBytes - e.size_bytes
        lruList := m.lruList.filter (fun x => x != key)
        cache := eraseKey m.cache key
        disk := m.disk.filter (fun x => x != key) }

/-- `CacheManager::clear()`: wipe the index, the recency list, the byte count
and every `.cache` file. -/
def CacheManager.clear (m : CacheManager) : CacheManager :=
  { m with cache := [], lruList := [], currentMemoryBytes := 0, disk := [] }

/-- `CacheManager::cleanup_expired_entries(max_age)` at instant `now`: collect
the keys whose `created` predates `now - max_age` (map iteration order =
association-list order), then `remove` each.  (In the source this re-locks the
already-held cache mutex; the sequential embedding models the functional
effect of the removals.) -/
def CacheManager.cleanup_expired_entries (m : CacheManager)
    (now max_age : Nat) : CacheManager :=
  let toRemove :=
    (m.cache.filter (fun p => max_age < now - p.2.created)).map Prod.fst
  toRemove.foldl (fun acc k => acc.remove k) m

/-- `CacheManager::memory_usage()`. -/
def CacheManager.memory_usage (m : CacheManager) : Nat := m.currentMemoryBytes

/-- `CacheManager::size()`. -/
def CacheManager.size (m : CacheManager) : Nat := m.cache.length

/-- `CacheManager::hit_rate()`: `0.0` with no recorded requests, else the
exact quotient `cache_hits_ / total_requests_` (a rational; for the small
integer counters at issue the `double` division in the source is exact). -/
def CacheManager.hit_rate (m : CacheManager) : ℚ :=
  if m.totalRequests = 0 then 0 else (m.cacheHits : ℚ) / (m.totalRequests : ℚ)

/-- The states a cache can reach from construction through the mutating
operations named by the spec's invariants: `put`, `get`, `remove`, `clear`,
`cleanup_expired_entries` and direct LRU eviction. -/
inductive CacheReachable : CacheManager → Prop where
  | init (mb tr ch : Nat) (disk0 : List String) :
      CacheReachable (mkCacheManager mb tr ch disk0)
  | get (m : CacheManager) (key : String) (now : Nat) :
      CacheReachable m → CacheReachable (m.get key now).1
  | put (m : CacheManager) (key : String) (data : MarketDataSeries)
      (now : Nat) : CacheReachable m → CacheReachable (m.put key data now)
  | remove (m : CacheManager) (key : String) :
      CacheReachable m → CacheReachable (m.remove key)
  | clear (m : CacheManager) : CacheReachable m → CacheReachable m.clear
  | cleanup (m : CacheManager) (now max_age : Nat) :
      CacheReachable m →
      CacheReachable (m.cleanup_expired_entries now max_age)
  | evict (m : CacheManager) :
      CacheReachable m → CacheReachable m.evict_lru_item

/-! # Invariants and proof-level state descriptions -/

/-- The queue state after the first `us` values of a run have been pushed onto
a fresh queue (no pops yet): slots `i < us.length` hold value `us[i]` with
published sequence `i + 1`, the rest are untouched. -/
def pushedState (α : Type) [Inhabited α] (cap : Nat) (us : List α) :
    LockFreeQueue α :=
  { capacity := cap
    buffer := fun i =>
      if i < us.length then ⟨us.getD i default, i + 1⟩ else ⟨default, i⟩
    head := us.length
    tail := 0 }

/-- The queue state after all of `vs` was pushed onto a fresh queue and the
first `j` values popped again: popped slots carry sequence `i + cap`. -/
def poppedState (α : Type) [Inhabited α] (cap : Nat) (vs : List α) (j : Nat) :
    LockFreeQueue α :=
  { capacity := cap
    buffer := fun i =>
      if i < vs.length then
        ⟨vs.getD i default, if i < j then i + cap else i + 1⟩
      else ⟨default, i⟩
    head := vs.length
    tail := j }

/-- The key list of the in-memory map, in binding order. -/
def cacheKeys (c : List (String × CacheEntry)) : List String :=
  c.map Prod.fst

/-- The total `size_bytes` of all in-memory entries. -/
def sumSizes (c : List (String × CacheEntry)) : Nat :=
  (c.map fun p => p.2.size_bytes).sum

/-- The byte-accounting invariant of the cache (spec §3): the sum of
`size_bytes` over all in-memory entries equals `current_memory_bytes_`. -/
def MemInv (m : CacheManager) : Prop :=
  sumSizes m.cache = m.currentMemoryBytes

instance (m : CacheManager) : Decidable (MemInv m) :=
  inferInstanceAs (Decidable (_ = _))

/-- The recency invariant of the cache (spec §3): the key set has no
duplicate bindings and the recency order is a permutation of it. -/
def RecencyInv (m : CacheManager) : Prop :=
  (cacheKeys m.cache).Nodup ∧ List.Perm m.lruList (cacheKeys m.cache)

instance (m : CacheManager) : Decidable (RecencyInv m) :=
  inferInstanceAs (Decidable (_ ∧ _))

/-- `n`-fold application of `evict_lru_item`. -/
def evictIter : Nat → CacheManager → CacheManager
  | 0, m => m
  | n + 1, m => evictIter n m.evict_lru_item

/-! # Lemmas: capacity rounding -/

/-- Starting the doubling loop at `2 ^ j` with every smaller power of two
still below `n` and enough fuel to reach `2 ^ 63` yields the least power of
two at least `n`, for any `n` between 2 and `2 ^ 63`. -/
theorem nextPow2Go_spec (n : Nat) :
    ∀ fuel j, 2 ≤ n → n ≤ 2 ^ 63 → 63 ≤ j + fuel →
      (∀ i, i < j → 2 ^ i < n) →
      ∃ k, nextPow2Go n fuel (2 ^ j) = some (2 ^ k) ∧ n ≤ 2 ^ k ∧
        ∀ m, n ≤ 2 ^ m → k ≤ m := by
  intro fuel
  induction fuel with
  | zero =>
    intro j _ hn63 hj hbelow
    have hnj : n ≤ 2 ^ j :=
      le_trans hn63 (Nat.pow_le_pow_right (by norm_num) (by omega))
    refine ⟨j, ?_, hnj, fun m hm => ?_⟩
    · simp [nextPow2Go, Nat.not_lt.mpr hnj]
    · by_contra hc
      exact absurd hm (Nat.not_le.mpr (hbelow m (by omega)))
  | succ fuel ih =>
    intro j h2 hn63 hj hbelow
    by_cases h : 2 ^ j < n
    · have hj63 : j < 63 := by
        by_contra hc
        have : 2 ^ 63 ≤ 2 ^ j := Nat.pow_le_pow_right (by norm_num) (by omega)
        omega
      have hmod : 2 ^ j * 2 % 2 ^ 64 = 2 ^ (j + 1) := by
        have hlt : 2 ^ (j + 1) < 2 ^ 64 :=
          Nat.pow_lt_pow_right (by norm_num) (by omega)
        rw [← Nat.pow_succ]
        exact Nat.mod_eq_of_lt hlt
      have step : nextPow2Go n (fuel + 1) (2 ^ j) =
          nextPow2Go n fuel (2 ^ (j + 1)) := by
        simp only [nextPow2Go]
        rw [if_pos h, hmod]
      rw [step]
      refine ih (j + 1) h2 hn63 (by omega) (fun i hi => ?_)
      rcases Nat.lt_succ_iff_lt_or_eq.mp hi with hi' | hi'
      · exact hbelow i hi'
      · simpa [hi'] using h
    · refine ⟨j, ?_, Nat.not_lt.mp h, fun m hm => ?_⟩
      · simp [nextPow2Go, h]
      · by_contra hc
        exact absurd hm (Nat.not_le.mpr (hbelow m (by omega)))

/-- `next_power_of_2` on any representable request (`n ≤ 2 ^ 63`) returns the
least power of two at least `max n 1`. -/
theorem next_power_of_2_spec (n : Nat) (hn : n ≤ 2 ^ 63) :
    ∃ k, next_power_of_2 n = some (2 ^ k) ∧ n ≤ 2 ^ k ∧ 1 ≤ 2 ^ k ∧
      ∀ m, n ≤ 2 ^ m → k ≤ m := by
  by_cases h1 : n ≤ 1
  · refine ⟨0, ?_, by simpa using h1, by norm_num, fun m _ => Nat.zero_le m⟩
    simp [next_power_of_2, h1]
  · have h2 : 2 ≤ n := by omega
    have hrun := nextPow2Go_spec n 64 0 h2 hn (by omega) (by omega)
    rcases hrun with ⟨k, hk, hge, hmin⟩
    refine ⟨k, ?_, hge, Nat.one_le_two_pow, hmin⟩
    simpa [next_power_of_2, h1] using hk

/-- At `n = 2 ^ 63 + 1` the doubling loop never exits, whatever the fuel:
every reachable `power` is `0` or a power of two at most `2 ^ 63`, all below
`n` (the `<<= 1` from `2 ^ 63` wraps to `0`). -/
theorem nextPow2Go_overflow_diverges :
    ∀ fuel power, (power = 0 ∨ ∃ k, k ≤ 63 ∧ power = 2 ^ k) →
      nextPow2Go (2 ^ 63 + 1) fuel power = none := by
  intro fuel
  induction fuel with
  | zero =>
    intro power hp
    have hlt : power < 2 ^ 63 + 1 := by
      rcases hp with h | ⟨k, hk, rfl⟩
      · omega
      · have : 2 ^ k ≤ 2 ^ 63 := Nat.pow_le_pow_right (by norm_num) hk
        omega
    simp only [nextPow2Go]
    rw [if_pos hlt]
  | succ fuel ih =>
    intro power hp
    have hlt : power < 2 ^ 63 + 1 := by
      rcases hp with h | ⟨k, hk, rfl⟩
      · omega
      · have : 2 ^ k ≤ 2 ^ 63 := Nat.pow_le_pow_right (by norm_num) hk
        omega
    have hnext : power * 2 % 2 ^ 64 = 0 ∨
        ∃ k, k ≤ 63 ∧ power * 2 % 2 ^ 64 = 2 ^ k := by
      rcases hp with h | ⟨k, hk, rfl⟩
      · left
        simp [h]
      · rcases Nat.lt_or_ge k 63 with hk' | hk'
        · right
          refine ⟨k + 1, by omega, ?_⟩
          have hlt' : 2 ^ (k + 1) < 2 ^ 64 :=
            Nat.pow_lt_pow_right (by norm_num) (by omega)
          rw [← Nat.pow_succ]
          exact Nat.mod_eq_of_lt hlt'
        · left
          have hk63 : k = 63 := by omega
          subst hk63
          have : (2 : Nat) ^ 63 * 2 = 2 ^ 64 := by norm_num
          simp [this]
    simp only [nextPow2Go]
    rw [if_pos hlt]
    exact ih _ hnext

/-! # Lemmas: sequential FIFO behaviour of the queue -/

theorem LockFreeQueue.eq_of_fields {α : Type} (a b : LockFreeQueue α)
    (h1 : a.capacity = b.capacity) (h2 : a.buffer = b.buffer)
    (h3 : a.head = b.head) (h4 : a.tail = b.tail) : a = b := by
  cases a
  cases b
  simp_all

theorem freshQueue_eq_pushedState (α : Type) [Inhabited α] (cap : Nat) :
    freshQueue α cap = pushedState α cap [] := by
  refine LockFreeQueue.eq_of_fields _ _ rfl ?_ rfl rfl
  funext i
  simp [freshQueue, pushedState]

theorem pushedState_eq_poppedState (α : Type) [Inhabited α] (cap : Nat)
    (vs : List α) : pushedState α cap vs = poppedState α cap vs 0 := by
  refine LockFreeQueue.eq_of_fields _ _ rfl ?_ rfl rfl
  funext i
  simp only [pushedState, poppedState]
  by_cases h : i < vs.length
  · rw [if_pos h, if_pos h, if_neg (by omega)]
  · rw [if_neg h, if_neg h]

/-- A successful `try_push`, written out: not full, and the target slot's
sequence matches `head_`. -/
theorem try_push_eq_of_ready {α : Type} (q : LockFreeQueue α) (v : α)
    (h1 : ¬ q.capacity ≤ q.head - q.tail)
    (h2 : (q.buffer (q.head % q.capacity)).sequence = q.head) :
    q.try_push v =
      ({ q with
          head := q.head + 1
          buffer := fun j =>
            if j = q.head % q.capacity then ⟨v, q.head + 1⟩ else q.buffer j },
        true) := by
  simp only [LockFreeQueue.try_push]
  rw [if_neg h1, if_neg (by simp [h2])]

/-- A successful `try_pop`, written out: not empty, and the target slot's
sequence matches `tail_ + 1`. -/
theorem try_pop_eq_of_ready {α : Type} (q : LockFreeQueue α)
    (h1 : ¬ q.head ≤ q.tail)
    (h2 : (q.buffer (q.tail % q.capacity)).sequence = q.tail + 1) :
    q.try_pop =
      ({ q with
          tail := q.tail + 1
          buffer := fun j =>
            if j = q.tail % q.capacity then
              ⟨(q.buffer (q.tail % q.capacity)).data, q.tail + q.capacity⟩
            else q.buffer j },
        some (q.buffer (q.tail % q.capacity)).data) := by
  simp only [LockFreeQueue.try_pop]
  rw [if_neg h1, if_neg (by simp [h2])]

theorem try_push_step (α : Type) [Inhabited α] (cap : Nat) (us : List α)
    (w : α) (h : us.length < cap) :
    (pushedState α cap us).try_push w =
      (pushedState α cap (us ++ [w]), true) := by
  have hhead : (pushedState α cap us).head = us.length := rfl
  have hcap : (pushedState α cap us).capacity = cap := rfl
  have hmod : us.length % cap = us.length := Nat.mod_eq_of_lt h
  rw [try_push_eq_of_ready (pushedState α cap us) w ?_ ?_]
  rotate_left
  · simp only [pushedState]
    omega
  · simp only [pushedState, hmod]
    rw [if_neg (by omega)]
  refine congrArg (fun s => (s, true)) ?_
  refine LockFreeQueue.eq_of_fields _ _ rfl ?_ (by simp [pushedState]) rfl
  funext i
  simp only [pushedState, hhead, hcap, hmod, List.length_append,
    List.length_cons, List.length_nil]
  by_cases hi : i = us.length
  · subst hi
    rw [if_pos rfl, if_pos (by omega)]
    simp
  · rw [if_neg hi]
    by_cases hilt : i < us.length
    · rw [if_pos hilt, if_pos (by omega), List.getD_append _ _ _ _ hilt]
    · rw [if_neg hilt, if_neg (by omega)]

theorem pushAll_spec (α : Type) [Inhabited α] (cap : Nat) :
    ∀ (ws us : List α), us.length + ws.length ≤ cap →
      (pushedState α cap us).pushAll ws =
        (pushedState α cap (us ++ ws), List.replicate ws.length true) := by
  intro ws
  induction ws with
  | nil =>
    intro us _
    simp [LockFreeQueue.pushAll]
  | cons w ws ih =>
    intro us hlen
    have hstep := try_push_step α cap us w (by simp at hlen; omega)
    have hrec := ih (us ++ [w]) (by simp at hlen ⊢; omega)
    simp only [LockFreeQueue.pushAll, hstep, hrec, List.append_assoc,
      List.singleton_append, List.length_cons, List.replicate_succ]

theorem try_pop_step (α : Type) [Inhabited α] (cap : Nat) (vs : List α)
    (j : Nat) (hj : j < vs.length) (hcap : vs.length ≤ cap) :
    (poppedState α cap vs j).try_pop =
      (poppedState α cap vs (j + 1), some (vs.getD j default)) := by
  have hmod : j % cap = j := Nat.mod_eq_of_lt (by omega)
  have htail : (poppedState α cap vs j).tail = j := rfl
  have hcap' : (poppedState α cap vs j).capacity = cap := rfl
  have hbuf : (poppedState α cap vs j).buffer (j % cap) =
      ⟨vs.getD j default, j + 1⟩ := by
    simp only [poppedState, hmod]
    rw [if_pos hj, if_neg (by omega)]
  rw [try_pop_eq_of_ready (poppedState α cap vs j) ?_ ?_]
  rotate_left
  · simp only [poppedState]
    omega
  · rw [htail, hcap', hbuf]
  rw [htail, hcap', hbuf]
  refine congrArg (fun s => (s, some (vs.getD j default))) ?_
  refine LockFreeQueue.eq_of_fields _ _ rfl ?_ rfl rfl
  funext i
  simp only [poppedState, hmod]
  by_cases hi : i = j
  · subst hi
    rw [if_pos rfl, if_pos hj, if_pos (by omega)]
  · rw [if_neg hi]
    by_cases hilt : i < vs.length
    · rw [if_pos hilt, if_pos hilt]
      by_cases hij : i < j
      · rw [if_pos hij, if_pos (by omega)]
      · rw [if_neg hij, if_neg (by omega)]
    · rw [if_neg hilt, if_neg hilt]

theorem popN_spec (α : Type) [Inhabited α] (cap : Nat) (vs : List α)
    (hcap : vs.length ≤ cap) :
    ∀ n j, j + n = vs.length →
      (poppedState α cap vs j).popN n =
        (poppedState α cap vs vs.length, (vs.drop j).map some) := by
  intro n
  induction n with
  | zero =>
    intro j hj
    have hj' : j = vs.length := by omega
    subst hj'
    simp [LockFreeQueue.popN, List.drop_length]
  | succ n ih =>
    intro j hj
    have hjlt : j < vs.length := by omega
    have hstep := try_pop_step α cap vs j hjlt hcap
    have hrec := ih (j + 1) (by omega)
    have hdrop : vs.drop j = vs.getD j default :: vs.drop (j + 1) := by
      rw [List.drop_eq_getElem_cons hjlt, List.getD_eq_getElem vs default hjlt]
    simp only [LockFreeQueue.popN, hstep, hrec, hdrop, List.map_cons]

/-! # Claim C7 -/

/-- **C7.** For every `N` not exceeding the realized capacity and every
sequence of `N` values, `N` sequential `try_push` calls on a freshly
constructed queue all succeed, and the following `N` `try_pop` calls all
succeed and return the pushed values in FIFO order. -/
theorem c7_spsc_fifo_order (C : Nat) (q : LockFreeQueue Nat) (vs : List Nat)
    (hq : mkLockFreeQueue Nat C = some q) (hN : vs.length ≤ q.capacity) :
    (q.pushAll vs).2 = List.replicate vs.length true ∧
      ((q.pushAll vs).1.popN vs.length).2 = vs.map some := by
  rcases Option.map_eq_some'.mp hq with ⟨cap, _, hfresh⟩
  have hq' : q = freshQueue Nat cap := hfresh.symm
  subst hq'
  have hNcap : vs.length ≤ cap := hN
  rw [freshQueue_eq_pushedState]
  have hpush := pushAll_spec Nat cap vs [] (by simpa using hNcap)
  rw [List.nil_append] at hpush
  rw [hpush]
  refine ⟨rfl, ?_⟩
  have hpop := popN_spec Nat cap vs hNcap vs.length 0 (by omega)
  rw [pushedState_eq_poppedState, hpop]
  simp

/-- Witness for C7 at `C = 5` (realized capacity 8) and the three-element
sequence `[10, 20, 30]`. -/
theorem c7_spsc_fifo_order_witness :
    (mkLockFreeQueue Nat 5 = some (freshQueue Nat 8) ∧
      ([10, 20, 30] : List Nat).length ≤ (freshQueue Nat 8).capacity) ∧
    (((freshQueue Nat 8).pushAll [10, 20, 30]).2 =
        List.replicate ([10, 20, 30] : List Nat).length true ∧
      (((freshQueue Nat 8).pushAll [10, 20, 30]).1.popN
          ([10, 20, 30] : List Nat).length).2 = [10, 20, 30].map some) :=
  ⟨⟨rfl, by decide⟩,
    c7_spsc_fifo_order 5 (freshQueue Nat 8) [10, 20, 30] rfl (by decide)⟩

/-! # Claim C8 -/

/-- **C8 (amended).** For every requested capacity `C ≤ 2 ^ 63` the realized
capacity is the least power of two at least `C` (minimum 1; in particular
0 ↦ 1, 1 ↦ 1, 5 ↦ 8, 100 ↦ 128), and neither `try_push` nor `try_pop` ever
changes the `capacity()` field.  (For `C > 2 ^ 63` the claim fails: the
rounding loop never terminates — theorem
`c8_counterexample_constructor_diverges`.) -/
theorem c8_realized_capacity_least_pow2 (C : Nat) (hC : C ≤ 2 ^ 63) :
    ∃ cap, mkLockFreeQueue Nat C = some (freshQueue Nat cap) ∧
      (freshQueue Nat cap).capacity = cap ∧
      1 ≤ cap ∧ (∃ k, cap = 2 ^ k) ∧ C ≤ cap ∧
      (∀ m, C ≤ 2 ^ m → cap ≤ 2 ^ m) ∧
      next_power_of_2 0 = some 1 ∧ next_power_of_2 1 = some 1 ∧
      next_power_of_2 5 = some 8 ∧ next_power_of_2 100 = some 128 ∧
      (∀ (q : LockFreeQueue Nat) (v : Nat),
        (q.try_push v).1.capacity = q.capacity ∧
        q.try_pop.1.capacity = q.capacity) := by
  rcases next_power_of_2_spec C hC with ⟨k, hk, hge, h1, hmin⟩
  refine ⟨2 ^ k, ?_, rfl, h1, ⟨k, rfl⟩, hge,
    fun m hm => Nat.pow_le_pow_right (by norm_num) (hmin m hm),
    by decide, by decide, by decide, by decide, fun q v => ⟨?_, ?_⟩⟩
  · simp [mkLockFreeQueue, hk]
  · simp only [LockFreeQueue.try_push]
    split
    · rfl
    · split
      · rfl
      · rfl
  · simp only [LockFreeQueue.try_pop]
    split
    · rfl
    · split
      · rfl
      · rfl

/-- Witness for C8 at the requested capacity 100. -/
theorem c8_realized_capacity_least_pow2_witness :
    100 ≤ 2 ^ 63 ∧
    (∃ cap, mkLockFreeQueue Nat 100 = some (freshQueue Nat cap) ∧
      (freshQueue Nat cap).capacity = cap ∧
      1 ≤ cap ∧ (∃ k, cap = 2 ^ k) ∧ 100 ≤ cap ∧
      (∀ m, 100 ≤ 2 ^ m → cap ≤ 2 ^ m) ∧
      next_power_of_2 0 = some 1 ∧ next_power_of_2 1 = some 1 ∧
      next_power_of_2 5 = some 8 ∧ next_power_of_2 100 = some 128 ∧
      (∀ (q : LockFreeQueue Nat) (v : Nat),
        (q.try_push v).1.capacity = q.capacity ∧
        q.try_pop.1.capacity = q.capacity)) :=
  ⟨by norm_num, c8_realized_capacity_least_pow2 100 (by norm_num)⟩

/-- **C8, counterexample.**  At the requested capacity `2 ^ 63 + 1` the claim
as stated fails: there is no realized capacity at all.  The constructor's
rounding loop never exits — `power` doubles up to `2 ^ 63`, wraps to `0` and
stays below `n` forever — so no amount of fuel makes `next_power_of_2`
return, and the embedded constructor yields `none`. -/
theorem c8_counterexample_constructor_diverges :
    mkLockFreeQueue Nat (2 ^ 63 + 1) = none ∧
      ∀ fuel, nextPow2Go (2 ^ 63 + 1) fuel 1 = none := by
  have hdiv : ∀ fuel, nextPow2Go (2 ^ 63 + 1) fuel 1 = none := fun fuel =>
    nextPow2Go_overflow_diverges fuel 1 (Or.inr ⟨0, by omega, rfl⟩)
  have hn1 : ¬ (2 ^ 63 + 1 ≤ 1) := by norm_num
  have h2 : next_power_of_2 (2 ^ 63 + 1) = none := by
    rw [next_power_of_2, if_neg hn1]
    exact hdiv 64
  refine ⟨?_, hdiv⟩
  simp only [mkLockFreeQueue]
  rw [h2]
  rfl

/-! # Claim C9 -/

/-- **C9.** After `shutdown()` the stop flag is set; every subsequent `submit`
fails synchronously with the invalid-state error and returns the pool
completely unchanged — nothing is enqueued, no task ever runs — and
`shutdown` itself is idempotent. -/
theorem c9_submit_after_shutdown_fails (p : ThreadPool) (task : Nat) :
    (p.shutdown.stop = true) ∧
      p.shutdown.submit task = (p.shutdown, SubmitResult.errStopped) ∧
      p.shutdown.shutdown = p.shutdown := by
  have hstop : p.shutdown.stop = true := by
    unfold ThreadPool.shutdown
    split
    · rfl
    · rfl
  refine ⟨hstop, ?_, ?_⟩
  · unfold ThreadPool.submit
    rw [hstop]
    rfl
  · unfold ThreadPool.shutdown
    split
    · split
      · rfl
      · simp_all [ThreadPool.shutdown]
    · split
      · simp_all [ThreadPool.shutdown]
      · simp_all [ThreadPool.shutdown]

/-! # Claim C3 -/

/-- Deallocating a pointer the validator rejects — null, outside every owned
chunk's (`total_blocks_ * block_size_`-sized) extent, or at an offset other
than `offsetof(Block, data)` modulo the block size — changes nothing. -/
theorem deallocate_invalid_noop (p : MemoryPool) (ptr : Nat)
    (h : p.is_valid_pointer ptr = false) : p.deallocate ptr = p := by
  unfold MemoryPool.deallocate
  by_cases h0 : ptr = 0
  · rw [if_pos h0]
  · rw [if_neg h0, if_pos (by simp [h])]

/-- Deallocating a pointer the validator accepts always pushes its block onto
the free list and decrements the (wrapping) allocation counter — whether or
not the pointer ever came out of `allocate()`. -/
theorem deallocate_valid_mutates (p : MemoryPool) (ptr : Nat)
    (h : p.is_valid_pointer ptr = true) :
    p.deallocate ptr =
      { p with
          freeList := (ptr - blockHeaderOffset) :: p.freeList
          allocatedBlocks := (p.allocatedBlocks + (2 ^ 64 - 1)) % 2 ^ 64 } := by
  have h0 : ptr ≠ 0 := by
    intro h0
    rw [MemoryPool.is_valid_pointer, h0] at h
    simp at h
  unfold MemoryPool.deallocate
  rw [if_neg h0, if_neg (by simp [h])]

/-- **C3 (amended).** `deallocate` is a no-op exactly on the pointers
`is_valid_pointer` rejects: null, outside every owned chunk, or misaligned
within one.  Validity, however, does not mean the pointer was ever returned
by `allocate()`: any address at a block-data offset inside a chunk — for
instance the data address of a block sitting on the free list — is accepted,
its block is pushed (again) onto the free list and `allocated_blocks()` is
decremented with `size_t` wrap-around.  The claim's "leaves the state
unchanged for every pointer never returned by allocate()" therefore only
holds for the rejected class (see `c3_counterexample_free_block_accepted`). -/
theorem c3_deallocate_invalid_pointer_noop (p : MemoryPool) (ptr : Nat)
    (h : p.is_valid_pointer ptr = false) :
    p.deallocate ptr = p ∧
      (p.deallocate ptr).allocated_blocks = p.allocated_blocks ∧
      (p.deallocate ptr).freeList = p.freeList := by
  have hne := deallocate_invalid_noop p ptr h
  exact ⟨hne, by rw [hne], by rw [hne]⟩

/-- Witness for the amended C3: a two-block pool built at chunk address 1024
with padded block size 24; the address 4096 lies outside the chunk, so
deallocating it changes nothing. -/
theorem c3_deallocate_invalid_pointer_noop_witness :
    ∃ p, mkMemoryPool 8 2 1024 = some p ∧
      p.is_valid_pointer 4096 = false ∧
      (p.deallocate 4096 = p ∧
        (p.deallocate 4096).allocated_blocks = p.allocated_blocks ∧
        (p.deallocate 4096).freeList = p.freeList) := by
  refine ⟨(mkMemoryPool 8 2 1024).get (by decide), by rfl, by decide, ?_⟩
  exact c3_deallocate_invalid_pointer_noop _ 4096 (by decide)

/-- **C3, counterexample.**  In the same freshly constructed pool (padded
block size `sizeof(Block) + 8 - 1 = 23`, rounded up to 24; blocks at 1024 and
1048) — no `allocate()` was ever called, so no pointer was ever handed out —
the address `1032 = 1024 + offsetof(Block, data)` is the data address of the
first block, which sits on the free list.  The claim says `deallocate(1032)`
must leave `allocated_blocks()` and the free list unchanged; instead the
validator accepts it, the block is pushed onto the free list a second time
and the counter wraps from 0 to `2 ^ 64 - 1`. -/
theorem c3_counterexample_free_block_accepted :
    ∃ p, mkMemoryPool 8 2 1024 = some p ∧
      p.allocated_blocks = 0 ∧
      p.freeList = [1048, 1024] ∧
      p.is_valid_pointer 1032 = true ∧
      (p.deallocate 1032).allocated_blocks = 2 ^ 64 - 1 ∧
      (p.deallocate 1032).freeList = [1024, 1048, 1024] := by
  refine ⟨(mkMemoryPool 8 2 1024).get (by decide), by rfl, ?_, ?_, ?_, ?_, ?_⟩
  · decide
  · decide
  · decide
  · decide
  · decide

/-! # Lemmas: cache association list -/

theorem findEntry_eq_none_iff (c : List (String × CacheEntry)) (k : String) :
    findEntry c k = none ↔ k ∉ cacheKeys c := by
  induction c with
  | nil => simp [findEntry, cacheKeys]
  | cons p rest ih =>
    obtain ⟨k', e⟩ := p
    by_cases h : k' = k
    · subst h
      simp [findEntry, cacheKeys]
    · simp [findEntry, h, cacheKeys] at ih ⊢
      rw [ih]
      simp [Ne.symm h]

theorem findEntry_mem_of_some (c : List (String × CacheEntry)) (k : String)
    (e : CacheEntry) (h : findEntry c k = some e) : k ∈ cacheKeys c := by
  by_contra hmem
  rw [← findEntry_eq_none_iff] at hmem
  rw [h] at hmem
  cases hmem

theorem findEntry_some_of_mem (c : List (String × CacheEntry)) (k : String)
    (h : k ∈ cacheKeys c) : ∃ e, findEntry c k = some e := by
  cases hf : findEntry c k with
  | none => exact absurd h ((findEntry_eq_none_iff c k).mp hf)
  | some e => exact ⟨e, rfl⟩

theorem eraseKey_of_none (c : List (String × CacheEntry)) (k : String)
    (h : findEntry c k = none) : eraseKey c k = c := by
  induction c with
  | nil => rfl
  | cons p rest ih =>
    obtain ⟨k', e⟩ := p
    by_cases hk : k' = k
    · simp [findEntry, hk] at h
    · simp only [findEntry, if_neg hk] at h
      simp [eraseKey, hk, ih h]

theorem cacheKeys_eraseKey (c : List (String × CacheEntry)) (k : String) :
    cacheKeys (eraseKey c k) = (cacheKeys c).erase k := by
  induction c with
  | nil => rfl
  | cons p rest ih =>
    obtain ⟨k', e⟩ := p
    by_cases hk : k' = k
    · subst hk
      simp [eraseKey, cacheKeys, List.erase_cons_head]
    · simp only [eraseKey, if_neg hk, cacheKeys, List.map_cons]
      rw [List.erase_cons_tail]
      · exact congrArg (k' :: ·) ih
      · simp [hk]

theorem sumSizes_eraseKey (c : List (String × CacheEntry)) (k : String)
    (e : CacheEntry) (h : findEntry c k = some e) :
    sumSizes (eraseKey c k) + e.size_bytes = sumSizes c := by
  induction c with
  | nil => cases h
  | cons p rest ih =>
    obtain ⟨k', e'⟩ := p
    by_cases hk : k' = k
    · simp only [findEntry, if_pos hk] at h
      obtain rfl : e' = e := by injection h
      simp [eraseKey, hk, sumSizes]
      omega
    · simp only [findEntry, if_neg hk] at h
      simp only [eraseKey, if_neg hk, sumSizes, List.map_cons, List.sum_cons]
      have := ih h
      simp only [sumSizes] at this
      omega

theorem cacheKeys_insertEntry_present (c : List (String × CacheEntry))
    (k : String) (e0 e : CacheEntry) (h : findEntry c k = some e0) :
    cacheKeys (insertEntry c k e) = cacheKeys c := by
  induction c with
  | nil => cases h
  | cons p rest ih =>
    obtain ⟨k', e'⟩ := p
    by_cases hk : k' = k
    · subst hk
      simp [insertEntry, cacheKeys]
    · simp only [findEntry, if_neg hk] at h
      have := ih h
      simp only [cacheKeys] at this
      simp [insertEntry, hk, cacheKeys, this]

theorem cacheKeys_insertEntry_absent (c : List (String × CacheEntry))
    (k : String) (e : CacheEntry) (h : findEntry c k = none) :
    cacheKeys (insertEntry c k e) = cacheKeys c ++ [k] := by
  induction c with
  | nil => rfl
  | cons p rest ih =>
    obtain ⟨k', e'⟩ := p
    by_cases hk : k' = k
    · simp [findEntry, hk] at h
    · simp only [findEntry, if_neg hk] at h
      have := ih h
      simp only [cacheKeys] at this
      simp [insertEntry, hk, cacheKeys, this]

theorem sumSizes_insertEntry_present (c : List (String × CacheEntry))
    (k : String) (e0 e : CacheEntry) (h : findEntry c k = some e0) :
    sumSizes (insertEntry c k e) + e0.size_bytes = sumSizes c + e.size_bytes := by
  induction c with
  | nil => cases h
  | cons p rest ih =>
    obtain ⟨k', e'⟩ := p
    by_cases hk : k' = k
    · simp only [findEntry, if_pos hk] at h
      obtain rfl : e' = e0 := by injection h
      simp [insertEntry, hk, sumSizes]
      omega
    · simp only [findEntry, if_neg hk] at h
      simp only [insertEntry, if_neg hk, sumSizes, List.map_cons, List.sum_cons]
      have := ih h
      simp only [sumSizes] at this
      omega

theorem sumSizes_insertEntry_absent (c : List (String × CacheEntry))
    (k : String) (e : CacheEntry) (h : findEntry c k = none) :
    sumSizes (insertEntry c k e) = sumSizes c + e.size_bytes := by
  induction c with
  | nil => simp [insertEntry, sumSizes]
  | cons p rest ih =>
    obtain ⟨k', e'⟩ := p
    by_cases hk : k' = k
    · simp [findEntry, hk] at h
    · simp only [findEntry, if_neg hk] at h
      simp only [insertEntry, if_neg hk, sumSizes, List.map_cons, List.sum_cons]
      have := ih h
      simp only [sumSizes] at this
      omega

theorem findEntry_size_le (c : List (String × CacheEntry)) (k : String)
    (e : CacheEntry) (h : findEntry c k = some e) :
    e.size_bytes ≤ sumSizes c := by
  have := sumSizes_eraseKey c k e h
  omega

/-! # Lemmas: cache invariant preservation -/

theorem recencyInv_lru_nodup (m : CacheManager) (h : RecencyInv m) :
    m.lruList.Nodup :=
  h.2.nodup_iff.mpr h.1

theorem recencyInv_lru_nil_iff (m : CacheManager) (h : RecencyInv m) :
    (m.lruList = [] ↔ m.cache = []) := by
  have hlen : m.lruList.length = m.cache.length := by
    have := h.2.length_eq
    simpa [cacheKeys] using this
  constructor
  · intro hl
    have : m.cache.length = 0 := by
      rw [← hlen, hl]
      rfl
    exact List.length_eq_zero.mp this
  · intro hc
    have : m.lruList.length = 0 := by
      rw [hlen, hc]
      rfl
    exact List.length_eq_zero.mp this

theorem memInv_get (m : CacheManager) (k : String) (now : Nat)
    (h : MemInv m) : MemInv (m.get k now).1 := by
  unfold CacheManager.get
  cases hf : findEntry m.cache k with
  | none => exact h
  | some e =>
    unfold MemInv at h ⊢
    have hs := sumSizes_insertEntry_present m.cache k e
      { e with last_accessed := now } hf
    simp only at hs ⊢
    omega

theorem recInv_get (m : CacheManager) (k : String) (now : Nat)
    (h : RecencyInv m) : RecencyInv (m.get k now).1 := by
  unfold CacheManager.get
  cases hf : findEntry m.cache k with
  | none => exact h
  | some e =>
    have hkeys := cacheKeys_insertEntry_present m.cache k e
      { e with last_accessed := now } hf
    have hk_mem : k ∈ cacheKeys m.cache := findEntry_mem_of_some _ _ _ hf
    have hk_lru : k ∈ m.lruList := h.2.mem_iff.mpr hk_mem
    have hnodup := recencyInv_lru_nodup m h
    refine ⟨?_, ?_⟩
    · simpa only [hkeys] using h.1
    · simp only [hkeys]
      rw [← hnodup.erase_eq_filter k]
      exact (List.perm_cons_erase hk_lru).symm.trans h.2

theorem memInv_evict (m : CacheManager) (h : MemInv m) :
    MemInv m.evict_lru_item := by
  unfold CacheManager.evict_lru_item
  cases hl : m.lruList.getLast? with
  | none => exact h
  | some kb =>
    dsimp only
    cases hf : findEntry m.cache kb with
    | none => exact h
    | some e =>
      unfold MemInv at h ⊢
      have hs := sumSizes_eraseKey m.cache kb e hf
      dsimp only
      omega

theorem recInv_evict (m : CacheManager) (h : RecencyInv m) :
    RecencyInv m.evict_lru_item := by
  unfold CacheManager.evict_lru_item
  cases hl : m.lruList.getLast? with
  | none => exact h
  | some kb =>
    have hne : m.lruList ≠ [] := by
      intro hnil
      rw [hnil] at hl
      cases hl
    have hlast : m.lruList.getLast hne = kb := by
      rw [List.getLast?_eq_getLast m.lruList hne] at hl
      injection hl
    have hkb_lru : kb ∈ m.lruList := hlast ▸ List.getLast_mem hne
    have hkb_keys : kb ∈ cacheKeys m.cache := h.2.mem_iff.mp hkb_lru
    have hnodup := recencyInv_lru_nodup m h
    have hsplit : m.lruList.dropLast ++ [kb] = m.lruList := by
      rw [← hlast]
      exact List.dropLast_append_getLast hne
    have hkb_not : kb ∉ m.lruList.dropLast := by
      have hnd := hnodup
      rw [← hsplit] at hnd
      rcases List.nodup_append.mp hnd with ⟨_, _, hdisj⟩
      intro hmem
      exact hdisj hmem (by simp)
    have hdrop : m.lruList.dropLast = m.lruList.erase kb := by
      calc m.lruList.dropLast
          = (m.lruList.dropLast ++ [kb]).erase kb := by
            rw [List.erase_append_right _ hkb_not]
            simp
        _ = m.lruList.erase kb := by rw [hsplit]
    dsimp only
    cases hf : findEntry m.cache kb with
    | none =>
      rcases findEntry_some_of_mem _ _ hkb_keys with ⟨e, he⟩
      rw [he] at hf
      cases hf
    | some e =>
      dsimp only
      refine ⟨?_, ?_⟩
      · show (cacheKeys (eraseKey m.cache kb)).Nodup
        rw [cacheKeys_eraseKey]
        exact h.1.erase kb
      · show List.Perm m.lruList.dropLast (cacheKeys (eraseKey m.cache kb))
        rw [cacheKeys_eraseKey, hdrop]
        exact h.2.erase kb

theorem memInv_evictLoop (ds : Nat) :
    ∀ (fuel : Nat) (m : CacheManager), MemInv m →
      MemInv (evictLoop ds fuel m) := by
  intro fuel
  induction fuel with
  | zero => intro m h; exact h
  | succ fuel ih =>
    intro m h
    unfold evictLoop
    split
    · exact ih _ (memInv_evict m h)
    · exact h

theorem recInv_evictLoop (ds : Nat) :
    ∀ (fuel : Nat) (m : CacheManager), RecencyInv m →
      RecencyInv (evictLoop ds fuel m) := by
  intro fuel
  induction fuel with
  | zero => intro m h; exact h
  | succ fuel ih =>
    intro m h
    unfold evictLoop
    split
    · exact ih _ (recInv_evict m h)
    · exact h

theorem memInv_putStore (m1 : CacheManager) (k : String)
    (d : MarketDataSeries) (now ds : Nat) (h : MemInv m1) :
    MemInv (m1.putStore k d now ds) := by
  unfold CacheManager.putStore
  cases hf : findEntry m1.cache k with
  | none =>
    unfold MemInv at h ⊢
    have hs := sumSizes_insertEntry_absent m1.cache k
      { data := d, size_bytes := ds, last_accessed := now, created := now } hf
    simp only at hs ⊢
    omega
  | some e0 =>
    unfold MemInv at h ⊢
    have hs := sumSizes_insertEntry_present m1.cache k e0
      { data := d, size_bytes := ds, last_accessed := now, created := now } hf
    have hle := findEntry_size_le m1.cache k e0 hf
    simp only at hs ⊢
    omega

theorem recInv_putStore (m1 : CacheManager) (k : String)
    (d : MarketDataSeries) (now ds : Nat) (h : RecencyInv m1) :
    RecencyInv (m1.putStore k d now ds) := by
  unfold CacheManager.putStore
  cases hf : findEntry m1.cache k with
  | none =>
    have hkeys := cacheKeys_insertEntry_absent m1.cache k
      { data := d, size_bytes := ds, last_accessed := now, created := now } hf
    have hk_not : k ∉ cacheKeys m1.cache := (findEntry_eq_none_iff _ _).mp hf
    refine ⟨?_, ?_⟩
    · show (cacheKeys (insertEntry m1.cache k _)).Nodup
      rw [hkeys]
      simp [List.nodup_append, h.1, hk_not]
    · show List.Perm (k :: m1.lruList) (cacheKeys (insertEntry m1.cache k _))
      rw [hkeys]
      exact (h.2.cons k).trans (List.perm_append_singleton k _).symm
  | some e0 =>
    have hkeys := cacheKeys_insertEntry_present m1.cache k e0
      { data := d, size_bytes := ds, last_accessed := now, created := now } hf
    have hk_mem : k ∈ cacheKeys m1.cache := findEntry_mem_of_some _ _ _ hf
    have hk_lru : k ∈ m1.lruList := h.2.mem_iff.mpr hk_mem
    have hnodup := recencyInv_lru_nodup m1 h
    refine ⟨?_, ?_⟩
    · show (cacheKeys (insertEntry m1.cache k _)).Nodup
      rw [hkeys]
      exact h.1
    · show List.Perm (k :: m1.lruList.filter _) (cacheKeys (insertEntry m1.cache k _))
      rw [hkeys, ← hnodup.erase_eq_filter k]
      exact (List.perm_cons_erase hk_lru).symm.trans h.2

theorem memInv_put (m : CacheManager) (k : String) (d : MarketDataSeries)
    (now : Nat) (h : MemInv m) : MemInv (m.put k d now) := by
  unfold CacheManager.put
  dsimp only
  split
  · exact memInv_evictLoop _ _ _ h
  · exact memInv_putStore _ _ _ _ _ (memInv_evictLoop _ _ _ h)

theorem recInv_put (m : CacheManager) (k : String) (d : MarketDataSeries)
    (now : Nat) (h : RecencyInv m) : RecencyInv (m.put k d now) := by
  unfold CacheManager.put
  dsimp only
  split
  · exact recInv_evictLoop _ _ _ h
  · exact recInv_putStore _ _ _ _ _ (recInv_evictLoop _ _ _ h)

theorem memInv_remove (m : CacheManager) (k : String) (h : MemInv m) :
    MemInv (m.remove k) := by
  unfold CacheManager.remove
  cases hf : findEntry m.cache k with
  | none => exact h
  | some e =>
    unfold MemInv at h ⊢
    have hs := sumSizes_eraseKey m.cache k e hf
    simp only at hs ⊢
    omega

theorem recInv_remove (m : CacheManager) (k : String) (h : RecencyInv m) :
    RecencyInv (m.remove k) := by
  unfold CacheManager.remove
  cases hf : findEntry m.cache k with
  | none => exact h
  | some e =>
    have hnodup := recencyInv_lru_nodup m h
    refine ⟨?_, ?_⟩
    · show (cacheKeys (eraseKey m.cache k)).Nodup
      rw [cacheKeys_eraseKey]
      exact h.1.erase k
    · show List.Perm (m.lruList.filter _) (cacheKeys (eraseKey m.cache k))
      rw [cacheKeys_eraseKey, ← hnodup.erase_eq_filter k]
      exact h.2.erase k

theorem memInv_clear (m : CacheManager) : MemInv m.clear := rfl

theorem recInv_clear (m : CacheManager) : RecencyInv m.clear :=
  ⟨List.nodup_nil, List.Perm.refl []⟩

theorem memInv_foldl_remove (ks : List String) :
    ∀ (m : CacheManager), MemInv m →
      MemInv (ks.foldl (fun acc k => acc.remove k) m) := by
  induction ks with
  | nil => intro m h; exact h
  | cons k ks ih => intro m h; exact ih _ (memInv_remove m k h)

theorem recInv_foldl_remove (ks : List String) :
    ∀ (m : CacheManager), RecencyInv m →
      RecencyInv (ks.foldl (fun acc k => acc.remove k) m) := by
  induction ks with
  | nil => intro m h; exact h
  | cons k ks ih => intro m h; exact ih _ (recInv_remove m k h)

theorem memInv_cleanup (m : CacheManager) (now max_age : Nat)
    (h : MemInv m) : MemInv (m.cleanup_expired_entries now max_age) :=
  memInv_foldl_remove _ m h

theorem recInv_cleanup (m : CacheManager) (now max_age : Nat)
    (h : RecencyInv m) : RecencyInv (m.cleanup_expired_entries now max_age) :=
  recInv_foldl_remove _ m h

theorem memInv_reachable (m : CacheManager) (h : CacheReachable m) :
    MemInv m := by
  induction h with
  | init mb tr ch disk0 => rfl
  | get m k now _ ih => exact memInv_get m k now ih
  | put m k d now _ ih => exact memInv_put m k d now ih
  | remove m k _ ih => exact memInv_remove m k ih
  | clear m _ _ => exact memInv_clear m
  | cleanup m now max_age _ ih => exact memInv_cleanup m now max_age ih
  | evict m _ ih => exact memInv_evict m ih

theorem recInv_reachable (m : CacheManager) (h : CacheReachable m) :
    RecencyInv m := by
  induction h with
  | init mb tr ch disk0 => exact ⟨List.nodup_nil, List.Perm.refl []⟩
  | get m k now _ ih => exact recInv_get m k now ih
  | put m k d now _ ih => exact recInv_put m k d now ih
  | remove m k _ ih => exact recInv_remove m k ih
  | clear m _ _ => exact recInv_clear m
  | cleanup m now max_age _ ih => exact recInv_cleanup m now max_age ih
  | evict m _ ih => exact recInv_evict m ih

/-! # Claim C5 -/

/-- **C5.** In every reachable cache state — any sequence of `put`, `get`,
`remove`, `clear`, `cleanup_expired_entries` and evictions from a freshly
constructed cache — the sum of `size_bytes` over the in-memory entries equals
`current_memory_bytes_`, so `memory_usage()` reports exactly the retained
entries' total size. -/
theorem c5_memory_usage_is_sum_of_entry_sizes (m : CacheManager)
    (h : CacheReachable m) : sumSizes m.cache = m.memory_usage :=
  memInv_reachable m h

/-- Witness for C5: a cache built by construction, one `put` and one
`remove`. -/
theorem c5_memory_usage_is_sum_of_entry_sizes_witness :
    CacheReachable (((mkCacheManager 10 0 0 []).put "AAPL" ⟨"AAPL", 10⟩ 1).remove "GOOG") ∧
      sumSizes (((mkCacheManager 10 0 0 []).put "AAPL" ⟨"AAPL", 10⟩ 1).remove "GOOG").cache =
        (((mkCacheManager 10 0 0 []).put "AAPL" ⟨"AAPL", 10⟩ 1).remove "GOOG").memory_usage := by
  have hr : CacheReachable
      (((mkCacheManager 10 0 0 []).put "AAPL" ⟨"AAPL", 10⟩ 1).remove "GOOG") :=
    CacheReachable.remove _ "GOOG"
      (CacheReachable.put _ "AAPL" ⟨"AAPL", 10⟩ 1
        (CacheReachable.init 10 0 0 []))
  exact ⟨hr, c5_memory_usage_is_sum_of_entry_sizes _ hr⟩

/-! # Claim C6 -/

/-- **C6.** In every reachable cache state the recency list is a permutation
of the in-memory map's key list: same elements, each exactly once, no
duplicates on either side. -/
theorem c6_recency_list_is_permutation_of_keys (m : CacheManager)
    (h : CacheReachable m) :
    List.Perm m.lruList (cacheKeys m.cache) ∧ m.lruList.Nodup ∧
      (cacheKeys m.cache).Nodup := by
  have hinv := recInv_reachable m h
  exact ⟨hinv.2, recencyInv_lru_nodup m hinv, hinv.1⟩

/-- Witness for C6: a cache built by construction, two `put`s and a `get`. -/
theorem c6_recency_list_is_permutation_of_keys_witness :
    CacheReachable ((((mkCacheManager 10 0 0 []).put "A" ⟨"A", 1⟩ 1).put "B" ⟨"B", 2⟩ 2).get "A" 3).1 ∧
      (List.Perm ((((mkCacheManager 10 0 0 []).put "A" ⟨"A", 1⟩ 1).put "B" ⟨"B", 2⟩ 2).get "A" 3).1.lruList
          (cacheKeys ((((mkCacheManager 10 0 0 []).put "A" ⟨"A", 1⟩ 1).put "B" ⟨"B", 2⟩ 2).get "A" 3).1.cache) ∧
        ((((mkCacheManager 10 0 0 []).put "A" ⟨"A", 1⟩ 1).put "B" ⟨"B", 2⟩ 2).get "A" 3).1.lruList.Nodup ∧
        (cacheKeys ((((mkCacheManager 10 0 0 []).put "A" ⟨"A", 1⟩ 1).put "B" ⟨"B", 2⟩ 2).get "A" 3).1.cache).Nodup) := by
  have hr : CacheReachable
      ((((mkCacheManager 10 0 0 []).put "A" ⟨"A", 1⟩ 1).put "B" ⟨"B", 2⟩ 2).get "A" 3).1 :=
    CacheReachable.get _ "A" 3
      (CacheReachable.put _ "B" ⟨"B", 2⟩ 2
        (CacheReachable.put _ "A" ⟨"A", 1⟩ 1
          (CacheReachable.init 10 0 0 [])))
  exact ⟨hr, c6_recency_list_is_permutation_of_keys _ hr⟩

/-! # Claim C1 -/

/-- **C1 (showing the code bug).**  `hit_rate()` is `0.0` with no recorded
requests — but after the claimed scenario (one `get` miss, one `put`, one
`get` hit on the same key, starting from a fresh cache with zeroed counters)
the source's counters are still `0`: `CacheManager::get` never increments
`total_requests_` or `cache_hits_`, so `total_requests == 0` (not 2),
`cache_hits == 0` (not 1) and `hit_rate() == 0.0` (not 0.5), even though the
second `get` does return the cached payload. -/
theorem c1_get_never_updates_hit_counters :
    (mkCacheManager 10 0 0 []).hit_rate = 0 ∧
      ((mkCacheManager 10 0 0 []).get "AAPL" 1).2 = none ∧
      ((((mkCacheManager 10 0 0 []).get "AAPL" 1).1.put "AAPL" ⟨"AAPL", 10⟩ 2).get "AAPL" 3).2 =
        some ⟨"AAPL", 10⟩ ∧
      ((((mkCacheManager 10 0 0 []).get "AAPL" 1).1.put "AAPL" ⟨"AAPL", 10⟩ 2).get "AAPL" 3).1.totalRequests = 0 ∧
      ((((mkCacheManager 10 0 0 []).get "AAPL" 1).1.put "AAPL" ⟨"AAPL", 10⟩ 2).get "AAPL" 3).1.cacheHits = 0 ∧
      ((((mkCacheManager 10 0 0 []).get "AAPL" 1).1.put "AAPL" ⟨"AAPL", 10⟩ 2).get "AAPL" 3).1.hit_rate = 0 := by
  refine ⟨rfl, by decide, by decide, by decide, by decide, ?_⟩
  rw [CacheManager.hit_rate, if_pos (by decide)]

/-! # Claim C4 -/

/-- **C4 (amended).**  `remove(key)` acts only when the key has an in-memory
entry: it then drops the entry, refunds its bytes, strips the key from the
recency order and deletes the key's on-disk file.  When the key has no
in-memory entry `remove` is a complete no-op — in particular an on-disk file
left behind by an earlier eviction is *not* deleted (the deletion sits inside
the `if (it != cache_.end())` block). -/
theorem c4_remove_deletes_disk_only_with_entry (m : CacheManager)
    (key : String) (hnd : (cacheKeys m.cache).Nodup) :
    (findEntry m.cache key = none → m.remove key = m) ∧
    (∀ e, findEntry m.cache key = some e →
      findEntry (m.remove key).cache key = none ∧
      (m.remove key).disk = m.disk.filter (fun x => x != key) ∧
      key ∉ (m.remove key).disk ∧
      (m.remove key).lruList = m.lruList.filter (fun x => x != key) ∧
      (m.remove key).currentMemoryBytes =
        m.currentMemoryBytes - e.size_bytes) := by
  constructor
  · intro hf
    unfold CacheManager.remove
    rw [hf]
  · intro e hf
    unfold CacheManager.remove
    rw [hf]
    dsimp only
    refine ⟨?_, rfl, ?_, rfl, rfl⟩
    · rw [findEntry_eq_none_iff, cacheKeys_eraseKey]
      exact hnd.not_mem_erase
    · simp

/-- Witness for the amended C4 at a concrete state with the key both cached
and mirrored on disk. -/
theorem c4_remove_deletes_disk_only_with_entry_witness :
    (cacheKeys ((mkCacheManager 10 0 0 []).put "A" ⟨"A", 1⟩ 1).cache).Nodup ∧
      (∃ e, findEntry ((mkCacheManager 10 0 0 []).put "A" ⟨"A", 1⟩ 1).cache "A" = some e ∧
        findEntry (((mkCacheManager 10 0 0 []).put "A" ⟨"A", 1⟩ 1).remove "A").cache "A" = none ∧
        "A" ∉ (((mkCacheManager 10 0 0 []).put "A" ⟨"A", 1⟩ 1).remove "A").disk) := by
  refine ⟨by decide, ⟨⟨⟨"A", 1⟩, 173, 1, 1⟩, by decide, ?_, ?_⟩⟩
  · exact ((c4_remove_deletes_disk_only_with_entry _ "A" (by decide)).2
      ⟨⟨"A", 1⟩, 173, 1, 1⟩ (by decide)).1
  · exact ((c4_remove_deletes_disk_only_with_entry _ "A" (by decide)).2
      ⟨⟨"A", 1⟩, 173, 1, 1⟩ (by decide)).2.2.1

/-- **C4, counterexample.**  A reachable state in which `k1`'s file exists on
disk but `k1` has been evicted from memory (budget pressure from `k2`): the
claim says `remove("k1")` deletes the on-disk file whenever it exists, but
the code leaves the state — including the disk — completely unchanged. -/
theorem c4_counterexample_remove_keeps_evicted_file :
    ("k1" ∈ (((mkCacheManager 1 0 0 []).put "k1" ⟨"A", 10000⟩ 1).put "k2" ⟨"B", 15000⟩ 2).disk ∧
      findEntry (((mkCacheManager 1 0 0 []).put "k1" ⟨"A", 10000⟩ 1).put "k2" ⟨"B", 15000⟩ 2).cache "k1" = none) ∧
      (((mkCacheManager 1 0 0 []).put "k1" ⟨"A", 10000⟩ 1).put "k2" ⟨"B", 15000⟩ 2).remove "k1" =
        ((mkCacheManager 1 0 0 []).put "k1" ⟨"A", 10000⟩ 1).put "k2" ⟨"B", 15000⟩ 2 ∧
      "k1" ∈ ((((mkCacheManager 1 0 0 []).put "k1" ⟨"A", 10000⟩ 1).put "k2" ⟨"B", 15000⟩ 2).remove "k1").disk := by
  refine ⟨⟨by decide, by decide⟩, by decide, by decide⟩

/-! # Lemmas: the eviction loop -/

theorem evictIter_succ_eq :
    ∀ (n : Nat) (m : CacheManager),
      evictIter (n + 1) m = (evictIter n m).evict_lru_item := by
  intro n
  induction n with
  | zero => intro m; rfl
  | succ n ih =>
    intro m
    show evictIter (n + 1) m.evict_lru_item = _
    rw [ih m.evict_lru_item]
    rfl

theorem recInv_evictIter (n : Nat) :
    ∀ (m : CacheManager), RecencyInv m → RecencyInv (evictIter n m) := by
  induction n with
  | zero => intro m h; exact h
  | succ n ih => intro m h; exact ih _ (recInv_evict m h)

theorem memInv_evictIter (n : Nat) :
    ∀ (m : CacheManager), MemInv m → MemInv (evictIter n m) := by
  induction n with
  | zero => intro m h; exact h
  | succ n ih => intro m h; exact ih _ (memInv_evict m h)

/-- Under the recency invariant, one eviction step on a non-empty cache pops
the back key of the recency order and erases exactly that entry. -/
theorem evict_lru_item_desc (s : CacheManager) (h : RecencyInv s)
    (hne : s.lruList ≠ []) :
    ∃ kb e, s.lruList.getLast? = some kb ∧ findEntry s.cache kb = some e ∧
      s.evict_lru_item =
        { s with
            lruList := s.lruList.dropLast
            currentMemoryBytes := s.currentMemoryBytes - e.size_bytes
            cache := eraseKey s.cache kb } := by
  have hl : s.lruList.getLast? = some (s.lruList.getLast hne) :=
    List.getLast?_eq_getLast s.lruList hne
  have hkb_lru : s.lruList.getLast hne ∈ s.lruList := List.getLast_mem hne
  have hkb_keys : s.lruList.getLast hne ∈ cacheKeys s.cache :=
    h.2.mem_iff.mp hkb_lru
  rcases findEntry_some_of_mem _ _ hkb_keys with ⟨e, he⟩
  refine ⟨s.lruList.getLast hne, e, hl, he, ?_⟩
  unfold CacheManager.evict_lru_item
  rw [hl]
  dsimp only
  rw [he]

/-- Under the recency invariant, eviction on a non-empty recency list removes
exactly one entry from the map. -/
theorem evict_cache_length (s : CacheManager) (h : RecencyInv s)
    (hne : s.lruList ≠ []) :
    s.evict_lru_item.cache.length + 1 = s.cache.length := by
  rcases evict_lru_item_desc s h hne with ⟨kb, e, hkb, he, heq⟩
  rw [heq]
  have hkb_keys : kb ∈ cacheKeys s.cache := findEntry_mem_of_some _ _ _ he
  have h1 : cacheKeys (eraseKey s.cache kb) = (cacheKeys s.cache).erase kb :=
    cacheKeys_eraseKey s.cache kb
  have hlen1 : (eraseKey s.cache kb).length =
      (cacheKeys (eraseKey s.cache kb)).length := by
    simp [cacheKeys]
  have hlen2 : s.cache.length = (cacheKeys s.cache).length := by
    simp [cacheKeys]
  rw [hlen1, hlen2, h1, List.length_erase_of_mem hkb_keys]
  have : 0 < (cacheKeys s.cache).length :=
    List.length_pos.mpr (List.ne_nil_of_mem hkb_keys)
  omega

theorem evictLoop_succ (ds fuel : Nat) (m : CacheManager) :
    evictLoop ds (fuel + 1) m =
      if evictGuard ds m then evictLoop ds fuel m.evict_lru_item else m := rfl

theorem evictLoop_of_not_guard (ds : Nat) (m : CacheManager)
    (h : ¬ evictGuard ds m) :
    ∀ fuel, evictLoop ds fuel m = m := by
  intro fuel
  cases fuel with
  | zero => rfl
  | succ fuel =>
    rw [evictLoop_succ, if_neg h]

theorem guard_lru_ne_nil (ds : Nat) (m : CacheManager) (h : RecencyInv m)
    (hg : evictGuard ds m) : m.lruList ≠ [] := by
  intro hnil
  exact hg.2 ((recencyInv_lru_nil_iff m h).mp hnil)

/-- With fuel at least `cache_.size()`, the eviction loop reaches a state
where its guard fails, and extra fuel does not change the result: the C++
`while` loop performs at most `size()` iterations on invariant states. -/
theorem evictLoop_stable (ds : Nat) :
    ∀ (fuel : Nat) (m : CacheManager), RecencyInv m →
      m.cache.length ≤ fuel →
      evictLoop ds fuel m = evictLoop ds m.cache.length m ∧
        ¬ evictGuard ds (evictLoop ds fuel m) := by
  intro fuel
  induction fuel with
  | zero =>
    intro m h hlen
    have hcache : m.cache = [] := List.length_eq_zero.mp (by omega)
    have hng : ¬ evictGuard ds m := fun hg => hg.2 hcache
    constructor
    · rw [evictLoop_of_not_guard ds m hng, evictLoop_of_not_guard ds m hng]
    · exact hng
  | succ fuel ih =>
    intro m h hlen
    by_cases hg : evictGuard ds m
    · have hne : m.lruList ≠ [] := guard_lru_ne_nil ds m h hg
      have hdec := evict_cache_length m h hne
      have hstep : evictLoop ds (fuel + 1) m =
          evictLoop ds fuel m.evict_lru_item := by
        rw [evictLoop_succ, if_pos hg]
      have hlen' : m.evict_lru_item.cache.length ≤ fuel := by omega
      have hrec := ih m.evict_lru_item (recInv_evict m h) hlen'
      have hcachelen : m.cache.length = m.evict_lru_item.cache.length + 1 := by
        omega
      have hrhs : evictLoop ds m.cache.length m =
          evictLoop ds m.evict_lru_item.cache.length m.evict_lru_item := by
        rw [hcachelen, evictLoop_succ, if_pos hg]
      rw [hstep, hrhs, hrec.1]
      exact ⟨rfl, by rw [← hrec.1]; exact hrec.2⟩
    · constructor
      · rw [evictLoop_of_not_guard ds m hg, evictLoop_of_not_guard ds m hg]
      · rw [evictLoop_of_not_guard ds m hg]
        exact hg

/-- With fuel at least `cache_.size()`, the loop result is `n` individual
evictions for some `n ≤ size()`, each taken only while the guard held, and
the guard fails at the result. -/
theorem evictLoop_iter_spec (ds : Nat) :
    ∀ (fuel : Nat) (m : CacheManager), RecencyInv m →
      m.cache.length ≤ fuel →
      ∃ n, n ≤ m.cache.length ∧ evictLoop ds fuel m = evictIter n m ∧
        (∀ j, j < n → evictGuard ds (evictIter j m)) ∧
        ¬ evictGuard ds (evictIter n m) := by
  intro fuel
  induction fuel with
  | zero =>
    intro m h hlen
    have hcache : m.cache = [] := List.length_eq_zero.mp (by omega)
    have hng : ¬ evictGuard ds m := fun hg => hg.2 hcache
    exact ⟨0, by omega, rfl, by omega, hng⟩
  | succ fuel ih =>
    intro m h hlen
    by_cases hg : evictGuard ds m
    · have hne : m.lruList ≠ [] := guard_lru_ne_nil ds m h hg
      have hdec := evict_cache_length m h hne
      have hlen' : m.evict_lru_item.cache.length ≤ fuel := by omega
      rcases ih m.evict_lru_item (recInv_evict m h) hlen' with
        ⟨n', hn', hloop', hguards', hnot'⟩
      refine ⟨n' + 1, by omega, ?_, ?_, ?_⟩
      · have hstep : evictLoop ds (fuel + 1) m =
            evictLoop ds fuel m.evict_lru_item := by
          rw [evictLoop_succ, if_pos hg]
        rw [hstep, hloop']
        rfl
      · intro j hj
        cases j with
        | zero => exact hg
        | succ j' =>
          show evictGuard ds (evictIter j' m.evict_lru_item)
          exact hguards' j' (by omega)
      · show ¬ evictGuard ds (evictIter n' m.evict_lru_item)
        exact hnot'
    · refine ⟨0, by omega, ?_, by omega, hg⟩
      rw [evictLoop_of_not_guard ds m hg]
      rfl

theorem findEntry_insertEntry_self (c : List (String × CacheEntry))
    (k : String) (e : CacheEntry) :
    findEntry (insertEntry c k e) k = some e := by
  induction c with
  | nil => simp [insertEntry, findEntry]
  | cons p rest ih =>
    obtain ⟨k', e'⟩ := p
    by_cases hk : k' = k
    · simp [insertEntry, hk, findEntry]
    · simp [insertEntry, hk, findEntry, ih]

theorem findEntry_insertEntry_ne (c : List (String × CacheEntry))
    (k k' : String) (e : CacheEntry) (h : k' ≠ k) :
    findEntry (insertEntry c k e) k' = findEntry c k' := by
  induction c with
  | nil => simp [insertEntry, findEntry, Ne.symm h]
  | cons p rest ih =>
    obtain ⟨k0, e0⟩ := p
    by_cases hk : k0 = k
    · subst hk
      simp [insertEntry, findEntry, Ne.symm h]
    · by_cases hk' : k0 = k'
      · subst hk'
        simp [insertEntry, hk, findEntry]
      · simp [insertEntry, hk, findEntry, hk', ih]

theorem filter_bne_eq_self (l : List String) (k : String) (h : k ∉ l) :
    l.filter (fun x => x != k) = l := by
  apply List.filter_eq_self.mpr
  intro a ha
  rw [bne_iff_ne]
  intro heq
  exact h (heq ▸ ha)

/-! # Claim C10 -/

/-- **C10.** On every state satisfying the recency-permutation invariant,
`put`'s eviction loop terminates: each iteration with a non-empty recency
list removes exactly one in-memory entry, the guard fails after at most
`cache_.size()` iterations (so fuel `size()` is exact and extra fuel changes
nothing), and `put` is precisely that loop followed by the store-or-drop
decision. -/
theorem c10_put_eviction_terminates (m : CacheManager) (ds : Nat)
    (h : RecencyInv m) :
    (∀ s, RecencyInv s → s.lruList ≠ [] →
      s.evict_lru_item.cache.length + 1 = s.cache.length) ∧
    ¬ evictGuard ds (evictLoop ds m.cache.length m) ∧
    (∀ extra, evictLoop ds (m.cache.length + extra) m =
      evictLoop ds m.cache.length m) ∧
    (∀ (key : String) (data : MarketDataSeries) (now : Nat),
      m.put key data now =
        if (evictLoop (estimate_memory_usage data) m.cache.length m).maxMemoryBytes <
            (evictLoop (estimate_memory_usage data) m.cache.length m).currentMemoryBytes +
              estimate_memory_usage data
        then evictLoop (estimate_memory_usage data) m.cache.length m
        else (evictLoop (estimate_memory_usage data) m.cache.length m).putStore
          key data now (estimate_memory_usage data)) := by
  refine ⟨fun s hs hne => evict_cache_length s hs hne,
    (evictLoop_stable ds m.cache.length m h le_rfl).2,
    fun extra => (evictLoop_stable ds (m.cache.length + extra) m h (by omega)).1,
    fun key data now => rfl⟩

/-- Witness for C10 at a one-entry cache and payload size 500. -/
theorem c10_put_eviction_terminates_witness :
    RecencyInv ((mkCacheManager 1 0 0 []).put "A" ⟨"A", 1⟩ 1) ∧
    ((∀ s, RecencyInv s → s.lruList ≠ [] →
      s.evict_lru_item.cache.length + 1 = s.cache.length) ∧
    ¬ evictGuard 500 (evictLoop 500 ((mkCacheManager 1 0 0 []).put "A" ⟨"A", 1⟩ 1).cache.length ((mkCacheManager 1 0 0 []).put "A" ⟨"A", 1⟩ 1)) ∧
    (∀ extra, evictLoop 500 (((mkCacheManager 1 0 0 []).put "A" ⟨"A", 1⟩ 1).cache.length + extra) ((mkCacheManager 1 0 0 []).put "A" ⟨"A", 1⟩ 1) =
      evictLoop 500 ((mkCacheManager 1 0 0 []).put "A" ⟨"A", 1⟩ 1).cache.length ((mkCacheManager 1 0 0 []).put "A" ⟨"A", 1⟩ 1)) ∧
    (∀ (key : String) (data : MarketDataSeries) (now : Nat),
      ((mkCacheManager 1 0 0 []).put "A" ⟨"A", 1⟩ 1).put key data now =
        if (evictLoop (estimate_memory_usage data) ((mkCacheManager 1 0 0 []).put "A" ⟨"A", 1⟩ 1).cache.length ((mkCacheManager 1 0 0 []).put "A" ⟨"A", 1⟩ 1)).maxMemoryBytes <
            (evictLoop (estimate_memory_usage data) ((mkCacheManager 1 0 0 []).put "A" ⟨"A", 1⟩ 1).cache.length ((mkCacheManager 1 0 0 []).put "A" ⟨"A", 1⟩ 1)).currentMemoryBytes +
              estimate_memory_usage data
        then evictLoop (estimate_memory_usage data) ((mkCacheManager 1 0 0 []).put "A" ⟨"A", 1⟩ 1).cache.length ((mkCacheManager 1 0 0 []).put "A" ⟨"A", 1⟩ 1)
        else (evictLoop (estimate_memory_usage data) ((mkCacheManager 1 0 0 []).put "A" ⟨"A", 1⟩ 1).cache.length ((mkCacheManager 1 0 0 []).put "A" ⟨"A", 1⟩ 1)).putStore
          key data now (estimate_memory_usage data))) :=
  ⟨by decide,
    c10_put_eviction_terminates ((mkCacheManager 1 0 0 []).put "A" ⟨"A", 1⟩ 1)
      500 (by decide)⟩

/-! # Claim C2 -/

/-- **C2.** On every state satisfying the cache invariants, `put(key, d)`
first performs some number `n ≤ cache_.size()` of single evictions, each
taken only while `current + size > budget` with a non-empty cache and each
removing exactly the back (least-recently-accessed) key of the recency order;
the loop stops as soon as the guard fails.  If the payload still exceeds the
budget after evicting down to an empty cache, `put` stores nothing and raises
no error, leaving the emptied state; otherwise the entry is inserted
(replacing any prior binding for the key) and the key moves to the front of
the recency order. -/
theorem c2_put_evicts_lru_until_fit (m : CacheManager) (key : String)
    (d : MarketDataSeries) (now : Nat) (hrec : RecencyInv m)
    (hmem : MemInv m) :
    ∃ n, n ≤ m.cache.length ∧
      evictLoop (estimate_memory_usage d) m.cache.length m = evictIter n m ∧
      (∀ j, j < n →
        evictGuard (estimate_memory_usage d) (evictIter j m) ∧
        ∃ kb e, (evictIter j m).lruList.getLast? = some kb ∧
          findEntry (evictIter j m).cache kb = some e ∧
          evictIter (j + 1) m =
            { evictIter j m with
                lruList := (evictIter j m).lruList.dropLast
                currentMemoryBytes :=
                  (evictIter j m).currentMemoryBytes - e.size_bytes
                cache := eraseKey (evictIter j m).cache kb }) ∧
      ¬ evictGuard (estimate_memory_usage d) (evictIter n m) ∧
      ((evictIter n m).maxMemoryBytes <
          (evictIter n m).currentMemoryBytes + estimate_memory_usage d →
        m.put key d now = evictIter n m ∧
        (evictIter n m).cache = [] ∧ (evictIter n m).lruList = [] ∧
        (evictIter n m).currentMemoryBytes = 0) ∧
      ((evictIter n m).currentMemoryBytes + estimate_memory_usage d ≤
          (evictIter n m).maxMemoryBytes →
        m.put key d now =
          (evictIter n m).putStore key d now (estimate_memory_usage d) ∧
        findEntry (m.put key d now).cache key =
          some ⟨d, estimate_memory_usage d, now, now⟩ ∧
        (∀ k', k' ≠ key →
          findEntry (m.put key d now).cache k' =
            findEntry (evictIter n m).cache k') ∧
        (m.put key d now).lruList =
          key :: (evictIter n m).lruList.filter (fun x => x != key)) := by
  rcases evictLoop_iter_spec (estimate_memory_usage d) m.cache.length m hrec
    le_rfl with ⟨n, hn, hloop, hguards, hnot⟩
  refine ⟨n, hn, hloop, ?_, hnot, ?_, ?_⟩
  · intro j hj
    have hgj := hguards j hj
    have hrecj := recInv_evictIter j m hrec
    have hnej : (evictIter j m).lruList ≠ [] :=
      guard_lru_ne_nil _ _ hrecj hgj
    rcases evict_lru_item_desc _ hrecj hnej with ⟨kb, e, hkb, he, heq⟩
    exact ⟨hgj, kb, e, hkb, he, by rw [evictIter_succ_eq, heq]⟩
  · intro hover
    have hput : m.put key d now = evictIter n m := by
      unfold CacheManager.put
      dsimp only
      rw [hloop, if_pos hover]
    have hcache : (evictIter n m).cache = [] := by
      by_contra hc
      exact hnot ⟨hover, hc⟩
    have hrecn := recInv_evictIter n m hrec
    have hlru : (evictIter n m).lruList = [] :=
      (recencyInv_lru_nil_iff _ hrecn).mpr hcache
    have hmemn := memInv_evictIter n m hmem
    have hcur : (evictIter n m).currentMemoryBytes = 0 := by
      unfold MemInv at hmemn
      rw [hcache] at hmemn
      simpa [sumSizes] using hmemn.symm
    exact ⟨hput, hcache, hlru, hcur⟩
  · intro hfit
    have hput : m.put key d now =
        (evictIter n m).putStore key d now (estimate_memory_usage d) := by
      unfold CacheManager.put
      dsimp only
      rw [hloop, if_neg (by omega)]
    refine ⟨hput, ?_, ?_, ?_⟩
    · rw [hput]
      unfold CacheManager.putStore
      dsimp only
      cases hf : findEntry (evictIter n m).cache key with
      | some e0 =>
        dsimp only
        exact findEntry_insertEntry_self _ _ _
      | none =>
        dsimp only
        exact findEntry_insertEntry_self _ _ _
    · intro k' hk'
      rw [hput]
      unfold CacheManager.putStore
      dsimp only
      cases hf : findEntry (evictIter n m).cache key with
      | some e0 =>
        dsimp only
        exact findEntry_insertEntry_ne _ _ _ _ hk'
      | none =>
        dsimp only
        exact findEntry_insertEntry_ne _ _ _ _ hk'
    · rw [hput]
      unfold CacheManager.putStore
      dsimp only
      cases hf : findEntry (evictIter n m).cache key with
      | some e0 => rfl
      | none =>
        dsimp only
        have hkeys : key ∉ cacheKeys (evictIter n m).cache :=
          (findEntry_eq_none_iff _ _).mp hf
        have hlru : key ∉ (evictIter n m).lruList := fun hmem =>
          hkeys ((recInv_evictIter n m hrec).2.mem_iff.mp hmem)
        rw [filter_bne_eq_self _ _ hlru]

/-- Witness for C2 at the fresh 1 MB cache, key `"k1"` and a 10000-point
payload. -/
theorem c2_put_evicts_lru_until_fit_witness :
    RecencyInv (mkCacheManager 1 0 0 []) ∧ MemInv (mkCacheManager 1 0 0 []) ∧
    (∃ n, n ≤ (mkCacheManager 1 0 0 []).cache.length ∧
      evictLoop (estimate_memory_usage ⟨"A", 10000⟩)
          (mkCacheManager 1 0 0 []).cache.length (mkCacheManager 1 0 0 []) =
        evictIter n (mkCacheManager 1 0 0 []) ∧
      (∀ j, j < n →
        evictGuard (estimate_memory_usage ⟨"A", 10000⟩)
          (evictIter j (mkCacheManager 1 0 0 [])) ∧
        ∃ kb e,
          (evictIter j (mkCacheManager 1 0 0 [])).lruList.getLast? = some kb ∧
          findEntry (evictIter j (mkCacheManager 1 0 0 [])).cache kb = some e ∧
          evictIter (j + 1) (mkCacheManager 1 0 0 []) =
            { evictIter j (mkCacheManager 1 0 0 []) with
                lruList :=
                  (evictIter j (mkCacheManager 1 0 0 [])).lruList.dropLast
                currentMemoryBytes :=
                  (evictIter j (mkCacheManager 1 0 0 [])).currentMemoryBytes -
                    e.size_bytes
                cache :=
                  eraseKey (evictIter j (mkCacheManager 1 0 0 [])).cache kb }) ∧
      ¬ evictGuard (estimate_memory_usage ⟨"A", 10000⟩)
        (evictIter n (mkCacheManager 1 0 0 [])) ∧
      ((evictIter n (mkCacheManager 1 0 0 [])).maxMemoryBytes <
          (evictIter n (mkCacheManager 1 0 0 [])).currentMemoryBytes +
            estimate_memory_usage ⟨"A", 10000⟩ →
        (mkCacheManager 1 0 0 []).put "k1" ⟨"A", 10000⟩ 1 =
          evictIter n (mkCacheManager 1 0 0 []) ∧
        (evictIter n (mkCacheManager 1 0 0 [])).cache = [] ∧
        (evictIter n (mkCacheManager 1 0 0 [])).lruList = [] ∧
        (evictIter n (mkCacheManager 1 0 0 [])).currentMemoryBytes = 0) ∧
      ((evictIter n (mkCacheManager 1 0 0 [])).currentMemoryBytes +
            estimate_memory_usage ⟨"A", 10000⟩ ≤
          (evictIter n (mkCacheManager 1 0 0 [])).maxMemoryBytes →
        (mkCacheManager 1 0 0 []).put "k1" ⟨"A", 10000⟩ 1 =
          (evictIter n (mkCacheManager 1 0 0 [])).putStore "k1" ⟨"A", 10000⟩ 1
            (estimate_memory_usage ⟨"A", 10000⟩) ∧
        findEntry ((mkCacheManager 1 0 0 []).put "k1" ⟨"A", 10000⟩ 1).cache "k1" =
          some ⟨⟨"A", 10000⟩, estimate_memory_usage ⟨"A", 10000⟩, 1, 1⟩ ∧
        (∀ k', k' ≠ "k1" →
          findEntry ((mkCacheManager 1 0 0 []).put "k1" ⟨"A", 10000⟩ 1).cache k' =
            findEntry (evictIter n (mkCacheManager 1 0 0 [])).cache k') ∧
        ((mkCacheManager 1 0 0 []).put "k1" ⟨"A", 10000⟩ 1).lruList =
          "k1" :: (evictIter n (mkCacheManager 1 0 0 [])).lruList.filter
            (fun x => x != "k1"))) :=
  ⟨by decide, by decide,
    c2_put_evicts_lru_until_fit (mkCacheManager 1 0 0 []) "k1" ⟨"A", 10000⟩ 1
      (by decide) (by decide)⟩
